import Mathlib

/-!
Verification of the koine-vocab reconciliation scripts.

This file gives a shallow embedding of the pure parts of the repository's
Python scripts (`merge_verses.py`, `add_morphology.py`,
`fetch_translations.py`, `fetch_greek_verses.py`) and proves the specified
properties about them.  Strings are modelled as Lean `String`/`List Char`;
Python dicts built by insert-if-absent are modelled as association lists with
first-binding-wins lookup; the Unicode library calls (`unicodedata.normalize`,
`unicodedata.category`, `str.lower`) are modelled by concrete finite tables
covering the repertoire the scripts operate on, with the identity as default.
-/

namespace KoineVocab

/-- Association-list lookup with first-binding-wins semantics, modelling a
Python dict read.  The builders in this file only insert a key when it is
absent, so consing fresh bindings at the front agrees with dict semantics. -/
def lookupL {α β : Type} [DecidableEq α] : List (α × β) → α → Option β
  | [], _ => none
  | (k, v) :: r, a => if a = k then some v else lookupL r a

theorem lookupL_mem {α β : Type} [DecidableEq α] {l : List (α × β)} {k : α} {v : β}
    (h : lookupL l k = some v) : (k, v) ∈ l := by
  induction l with
  | nil => simp [lookupL] at h
  | cons p r ih =>
    obtain ⟨a, b⟩ := p
    by_cases hk : k = a
    · subst hk
      simp [lookupL] at h
      simp [h]
    · simp [lookupL, hk] at h
      exact List.mem_cons_of_mem _ (ih h)

/-! ## merge_verses.py -/

/-- `BOOK_ID_MAP` from `merge_verses.py`: canonical book id aliases. -/
def BOOK_ID_MAP : List (String × String) :=
  [("matthew", "matt"), ("mark", "mark"), ("luke", "luke"), ("john", "john"),
   ("acts", "acts"), ("romans", "rom"), ("1corinthians", "1cor"),
   ("2corinthians", "2cor"), ("galatians", "gal"), ("ephesians", "eph"),
   ("philippians", "phil"), ("colossians", "col"), ("1thessalonians", "1thess"),
   ("2thessalonians", "2thess"), ("1timothy", "1tim"), ("2timothy", "2tim"),
   ("titus", "titus"), ("philemon", "phlm"), ("hebrews", "heb"),
   ("james", "jas"), ("1peter", "1pet"), ("2peter", "2pet"),
   ("1john", "1john"), ("2john", "2john"), ("3john", "3john"),
   ("jude", "jude"), ("revelation", "rev"),
   ("matt", "matt"), ("rom", "rom"), ("1cor", "1cor"), ("2cor", "2cor"),
   ("gal", "gal"), ("eph", "eph"), ("phil", "phil"), ("col", "col"),
   ("1thess", "1thess"), ("2thess", "2thess"), ("1tim", "1tim"),
   ("2tim", "2tim"), ("phlm", "phlm"), ("heb", "heb"), ("jas", "jas"),
   ("1pet", "1pet"), ("2pet", "2pet")]

/-- ASCII lower-casing of one character (the book ids handled by
`merge_verses.py` are ASCII, so `str.lower` restricted to ASCII). -/
def asciiLowerChar (c : Char) : Char :=
  if 'A' ≤ c ∧ c ≤ 'Z' then Char.ofNat (c.toNat + 32) else c

/-- ASCII upper-casing of one character. -/
def asciiUpperChar (c : Char) : Char :=
  if 'a' ≤ c ∧ c ≤ 'z' then Char.ofNat (c.toNat - 32) else c

/-- `c` is an ASCII lowercase letter. -/
def isAsciiLower (c : Char) : Bool := 'a' ≤ c && c ≤ 'z'

/-- `str.lower` on an ASCII string. -/
def lowerAscii (s : String) : String := String.mk (s.data.map asciiLowerChar)

/-- `normalize_book_id` from `merge_verses.py`:
`BOOK_ID_MAP.get(book_id.lower(), book_id)`. -/
def normalize_book_id (book_id : String) : String :=
  (lookupL BOOK_ID_MAP (lowerAscii book_id)).getD book_id

/-- Python `\s` (ASCII part): the whitespace characters relevant here. -/
def isPySpace (c : Char) : Bool :=
  c = ' ' || c = '\t' || c = '\n' || c = '\x0d' || c = '\x0b' || c = '\x0c'

/-- One step of `re.sub(r'\s+', ' ', t)`: collapse each whitespace run to a
single space. -/
def collapseWs : List Char → List Char
  | [] => []
  | [c] => if isPySpace c then [' '] else [c]
  | c :: d :: rest =>
    if isPySpace c then
      if isPySpace d then collapseWs (d :: rest) else ' ' :: collapseWs (d :: rest)
    else c :: collapseWs (d :: rest)

/-- Python `str.strip()`: drop whitespace from both ends. -/
def pyStripChars (s : List Char) : List Char :=
  ((s.dropWhile isPySpace).reverse.dropWhile isPySpace).reverse

/-- The punctuation class `[,;:.!?]` of `clean_translation`. -/
def isPunct (c : Char) : Bool :=
  c = ',' || c = ';' || c = ':' || c = '.' || c = '!' || c = '?'

/-- `re.sub(r'\s+([,;:.!?])', r'\1', t)`: delete whitespace immediately
preceding one of the punctuation characters. -/
def dropSpaceBeforePunct (s : List Char) : List Char :=
  s.foldr
    (fun c acc =>
      if isPySpace c && (match acc with | p :: _ => isPunct p | [] => false)
      then acc else c :: acc) []

/-- `re.sub(r'(\. )([a-z])', ...)` from `clean_translation`: uppercase a
lowercase ASCII letter that follows a period and a space.  The scan resumes
after each match, exactly as `re.sub` does. -/
def capAfterPeriodAux : Nat → List Char → List Char
  | _, [] => []
  | 0, s => s
  | fuel + 1, '.' :: ' ' :: c :: rest =>
    if isAsciiLower c then '.' :: ' ' :: asciiUpperChar c :: capAfterPeriodAux fuel rest
    else '.' :: capAfterPeriodAux fuel (' ' :: c :: rest)
  | fuel + 1, c :: rest => c :: capAfterPeriodAux fuel rest

/-- Entry point of the scan; one unit of fuel per character scanned always
suffices. -/
def capAfterPeriod (s : List Char) : List Char := capAfterPeriodAux s.length s

/-- `clean_translation` from `merge_verses.py`. -/
def clean_translation (t : List Char) : List Char :=
  let t1 := pyStripChars (collapseWs t)
  let t2 := dropSpaceBeforePunct t1
  let t3 := capAfterPeriod t2
  match t3 with
  | c :: rest => if isAsciiLower c then asciiUpperChar c :: rest else c :: rest
  | [] => []

/-- An input verse record as read from JSON by `merge_verses.py`: `book` and
`chapter` are accessed unconditionally, every other field through `.get` with
a default. -/
structure VerseIn where
  book : String
  chapter : Int
  verse : Option Int
  reference : Option String
  greek : Option String
  transliteration : Option String
  referenceTranslation : Option String
  keyTerms : Option (List String)
  difficulty : Option Int
  notes : Option String
  tier : Option Int
deriving DecidableEq

/-- A normalized verse record, the shape produced by `normalize_verse`. -/
structure VerseOut where
  id : String
  book : String
  chapter : Int
  verse : Int
  reference : String
  greek : String
  transliteration : String
  referenceTranslation : String
  keyTerms : List String
  difficulty : Int
  notes : String
  tier : Int
deriving DecidableEq

/-- `normalize_verse` from `merge_verses.py`. -/
def normalize_verse (v : VerseIn) : VerseOut :=
  let book := normalize_book_id v.book
  let chapter := v.chapter
  let verse_num := v.verse.getD 0
  { id := book ++ "-" ++ toString chapter ++ "-" ++ toString verse_num
    book := book
    chapter := chapter
    verse := verse_num
    reference := v.reference.getD ""
    greek := v.greek.getD ""
    transliteration := v.transliteration.getD ""
    referenceTranslation := String.mk (clean_translation (v.referenceTranslation.getD "").data)
    keyTerms := v.keyTerms.getD []
    difficulty := v.difficulty.getD 2
    notes := v.notes.getD ""
    tier := v.tier.getD 2 }

/-- `make_verse_key` from `merge_verses.py`, applied (as in `main`) to an
already-normalized verse: `f"{book}-{chapter}-{verse_num}"` with the book id
normalized again. -/
def make_verse_key (v : VerseOut) : String :=
  normalize_book_id v.book ++ "-" ++ toString v.chapter ++ "-" ++ toString v.verse

/-- State of the merge loop in `main` of `merge_verses.py`. -/
structure MergeState where
  keys : List String
  acc : List VerseOut
  added : Nat
  skipped : Nat
deriving DecidableEq

/-- The key set built from the existing collection before any new verse is
considered (`existing_keys` in `main`). -/
def existingKeys (existing : List VerseIn) : List String :=
  existing.map (fun v => make_verse_key (normalize_verse v))

/-- One iteration of the `for verse in new_verses` loop in `main`. -/
def mergeStep (st : MergeState) (v : VerseIn) : MergeState :=
  let n := normalize_verse v
  let k := make_verse_key n
  if k ∈ st.keys then { st with skipped := st.skipped + 1 }
  else { keys := k :: st.keys, acc := st.acc ++ [n],
         added := st.added + 1, skipped := st.skipped }

/-- The full merge loop of `main`: normalize the existing collection, build
its key set, then fold the incoming verses through `mergeStep`. -/
def mergeRun (existing : List VerseIn) (new : List VerseIn) : MergeState :=
  new.foldl mergeStep
    { keys := existingKeys existing
      acc := existing.map normalize_verse
      added := 0, skipped := 0 }

/-- The merged collection (before the final stable sort of `main`). -/
def mergedVerses (existing new : List VerseIn) : List VerseOut :=
  (mergeRun existing new).acc

/-- The verses actually appended by the merge loop. -/
def addedVerses (existing new : List VerseIn) : List VerseOut :=
  (new.foldl mergeStep
    { keys := existingKeys existing, acc := [], added := 0, skipped := 0 }).acc

theorem mergeFold_acc_append (new : List VerseIn) :
    ∀ (keys : List String) (acc₁ acc₂ : List VerseOut) (a s : Nat),
      (new.foldl mergeStep ⟨keys, acc₁ ++ acc₂, a, s⟩).acc
        = acc₁ ++ (new.foldl mergeStep ⟨keys, acc₂, a, s⟩).acc := by
  induction new with
  | nil => intro keys acc₁ acc₂ a s; simp
  | cons v rest ih =>
    intro keys acc₁ acc₂ a s
    simp only [List.foldl_cons, mergeStep]
    by_cases h : make_verse_key (normalize_verse v) ∈ keys
    · simp only [h, if_true]
      exact ih keys acc₁ acc₂ a (s + 1)
    · simp only [h, if_false]
      rw [List.append_assoc]
      exact ih _ acc₁ (acc₂ ++ [normalize_verse v]) (a + 1) s

theorem mergeFold_fresh (new : List VerseIn) :
    ∀ (keys keys₀ : List String) (acc : List VerseOut) (a s : Nat),
      (∀ k, k ∈ keys₀ → k ∈ keys) →
      ∀ x ∈ (new.foldl mergeStep ⟨keys, acc, a, s⟩).acc,
        x ∈ acc ∨ make_verse_key x ∉ keys₀ := by
  induction new with
  | nil => intro keys keys₀ acc a s _ x hx; exact Or.inl hx
  | cons v rest ih =>
    intro keys keys₀ acc a s hsub x hx
    simp only [List.foldl_cons, mergeStep] at hx
    by_cases h : make_verse_key (normalize_verse v) ∈ keys
    · simp only [h, if_true] at hx
      exact ih keys keys₀ acc a (s + 1) hsub x hx
    · simp only [h, if_false] at hx
      have step := ih (make_verse_key (normalize_verse v) :: keys) keys₀
        (acc ++ [normalize_verse v]) (a + 1) s
        (fun k hk => List.mem_cons_of_mem _ (hsub k hk)) x hx
      rcases step with hmem | hfree
      · rcases List.mem_append.mp hmem with h1 | h2
        · exact Or.inl h1
        · have hx_eq : x = normalize_verse v := by simpa using h2
          subst hx_eq
          exact Or.inr (fun hk0 => h (hsub _ hk0))
      · exact Or.inr hfree

theorem mergeFold_allPresent (new : List VerseIn) :
    ∀ (keys : List String) (acc : List VerseOut) (a s : Nat),
      (∀ v ∈ new, make_verse_key (normalize_verse v) ∈ keys) →
      new.foldl mergeStep ⟨keys, acc, a, s⟩ = ⟨keys, acc, a, s + new.length⟩ := by
  induction new with
  | nil => intro keys acc a s _; simp
  | cons v rest ih =>
    intro keys acc a s hall
    simp only [List.foldl_cons, mergeStep]
    rw [if_pos (hall v (List.mem_cons_self v rest))]
    have hrec := ih keys acc a (s + 1) (fun w hw => hall w (List.mem_cons_of_mem _ hw))
    simp only [hrec, List.length_cons]
    congr 1
    omega

/-- C1: merge precedence — whenever an incoming verse's VerseKey equals the
key of a verse already in the existing collection, the merged output is
exactly the normalized existing collection followed by the appended fresh
verses, the colliding incoming verse is not among the appended ones, and
every existing verse's normalized record appears (fields unchanged) in the
merged output. -/
theorem merge_precedence (existing new : List VerseIn) (v : VerseIn)
    (hv : v ∈ new)
    (hk : make_verse_key (normalize_verse v) ∈ existingKeys existing) :
    mergedVerses existing new = existing.map normalize_verse ++ addedVerses existing new
    ∧ normalize_verse v ∉ addedVerses existing new
    ∧ ∀ w ∈ existing, normalize_verse w ∈ mergedVerses existing new := by
  have hsplit : mergedVerses existing new
      = existing.map normalize_verse ++ addedVerses existing new := by
    unfold mergedVerses mergeRun addedVerses
    have := mergeFold_acc_append new (existingKeys existing)
      (existing.map normalize_verse) [] 0 0
    simpa using this
  refine ⟨hsplit, ?_, ?_⟩
  · intro hmem
    have := mergeFold_fresh new (existingKeys existing) (existingKeys existing)
      [] 0 0 (fun _ h => h) (normalize_verse v) hmem
    rcases this with h1 | h2
    · simp at h1
    · exact h2 hk
  · intro w hw
    rw [hsplit]
    exact List.mem_append_left _ (List.mem_map_of_mem _ hw)

/-- Sample existing verse used by the merge witnesses. -/
def verseJohn316 : VerseIn :=
  { book := "john", chapter := 3, verse := some 16, reference := some "John 3:16"
    greek := none, transliteration := none
    referenceTranslation := some "For God so loved the world"
    keyTerms := none, difficulty := none, notes := none, tier := none }

/-- Sample incoming verse whose key collides with `verseJohn316`. -/
def verseJohn316Alt : VerseIn :=
  { book := "John", chapter := 3, verse := some 16, reference := none
    greek := none, transliteration := none
    referenceTranslation := some "a different rendering"
    keyTerms := none, difficulty := none, notes := none, tier := none }

theorem merge_precedence_witness :
    (verseJohn316Alt ∈ [verseJohn316Alt]
      ∧ make_verse_key (normalize_verse verseJohn316Alt) ∈ existingKeys [verseJohn316])
    ∧ (mergedVerses [verseJohn316] [verseJohn316Alt]
        = [verseJohn316].map normalize_verse ++ addedVerses [verseJohn316] [verseJohn316Alt]
      ∧ normalize_verse verseJohn316Alt ∉ addedVerses [verseJohn316] [verseJohn316Alt]
      ∧ ∀ w ∈ [verseJohn316],
          normalize_verse w ∈ mergedVerses [verseJohn316] [verseJohn316Alt]) :=
  ⟨⟨by decide, by decide⟩,
    merge_precedence [verseJohn316] [verseJohn316Alt] verseJohn316Alt
      (by decide) (by decide)⟩

/-- C6: merge idempotence — merging a collection into itself appends
nothing: the added list is empty, the output is exactly the normalized
existing collection, and the `added` counter is zero. -/
theorem merge_idempotent (vs : List VerseIn) :
    addedVerses vs vs = [] ∧ mergedVerses vs vs = vs.map normalize_verse
    ∧ (mergeRun vs vs).added = 0 := by
  have hall : ∀ v ∈ vs, make_verse_key (normalize_verse v) ∈ existingKeys vs := by
    intro v hv
    exact List.mem_map_of_mem _ hv
  refine ⟨?_, ?_, ?_⟩
  · unfold addedVerses
    rw [mergeFold_allPresent vs (existingKeys vs) [] 0 0 hall]
  · unfold mergedVerses mergeRun
    rw [mergeFold_allPresent vs (existingKeys vs) (vs.map normalize_verse) 0 0 hall]
  · unfold mergeRun
    rw [mergeFold_allPresent vs (existingKeys vs) (vs.map normalize_verse) 0 0 hall]

/-- C10: a verse record lacking the verse-number field gets verse number `0`
both in its normalized record and in its deduplication key, so two records
with the same normalized book and chapter that both lack the field collide,
and the merge keeps only the first-seen one. -/
theorem missing_verse_number_defaults (v w : VerseIn)
    (hv : v.verse = none) (hw : w.verse = none)
    (hb : normalize_book_id v.book = normalize_book_id w.book)
    (hc : v.chapter = w.chapter) :
    (normalize_verse v).verse = 0
    ∧ make_verse_key (normalize_verse v) = make_verse_key (normalize_verse w)
    ∧ mergedVerses [] [v, w] = [normalize_verse v] := by
  have h1 : (normalize_verse v).verse = 0 := by simp [normalize_verse, hv]
  have hkey : make_verse_key (normalize_verse v) = make_verse_key (normalize_verse w) := by
    simp only [make_verse_key, normalize_verse, hv, hw, hc, hb, Option.getD_none]
  refine ⟨h1, hkey, ?_⟩
  simp only [mergedVerses, mergeRun, existingKeys, List.map_nil, List.foldl_cons,
    List.foldl_nil, mergeStep]
  rw [if_neg (List.not_mem_nil _)]
  simp only [List.nil_append]
  rw [if_pos (by simp [hkey])]

/-- Existing sample verse lacking the verse-number field. -/
def verseNoNumA : VerseIn :=
  { book := "Matthew", chapter := 5, verse := none, reference := none
    greek := none, transliteration := none, referenceTranslation := none
    keyTerms := none, difficulty := none, notes := none, tier := none }

/-- Second sample verse lacking the verse-number field, same normalized book. -/
def verseNoNumB : VerseIn :=
  { book := "matt", chapter := 5, verse := none, reference := some "Matt 5"
    greek := none, transliteration := none, referenceTranslation := none
    keyTerms := none, difficulty := none, notes := none, tier := none }

theorem missing_verse_number_defaults_witness :
    (verseNoNumA.verse = none ∧ verseNoNumB.verse = none
      ∧ normalize_book_id verseNoNumA.book = normalize_book_id verseNoNumB.book
      ∧ verseNoNumA.chapter = verseNoNumB.chapter)
    ∧ ((normalize_verse verseNoNumA).verse = 0
      ∧ make_verse_key (normalize_verse verseNoNumA)
          = make_verse_key (normalize_verse verseNoNumB)
      ∧ mergedVerses [] [verseNoNumA, verseNoNumB] = [normalize_verse verseNoNumA]) :=
  ⟨⟨by decide, by decide, by decide, by decide⟩,
    missing_verse_number_defaults verseNoNumA verseNoNumB
      (by decide) (by decide) (by decide) (by decide)⟩

/-! ## add_morphology.py: morphology code parser -/

/-- Python `str.split(sep)`: split on every occurrence of `sep`, keeping
empty segments; the result is always nonempty. -/
def pySplit (sep : Char) : List Char → List (List Char)
  | [] => [[]]
  | c :: rest =>
    if c = sep then [] :: pySplit sep rest
    else
      match pySplit sep rest with
      | seg :: segs => (c :: seg) :: segs
      | [] => [[c]]

/-- `str.upper()` on the ASCII morphology codes. -/
def upperL (s : List Char) : List Char := s.map asciiUpperChar

/-- `str.lower()` on the ASCII morphology codes. -/
def lowerL (s : List Char) : List Char := s.map asciiLowerChar

/-- `MORPH_TYPE` from `add_morphology.py`. -/
def MORPH_TYPE : List (String × String) :=
  [("N", "noun"), ("V", "verb"), ("A", "adjective"), ("ADV", "adverb"),
   ("ART", "article"), ("T", "article"), ("COND", "conditional"),
   ("CONJ", "conjunction"), ("COR", "correlative"), ("D", "demonstrative"),
   ("DEMP", "demonstrative pronoun"), ("IMPP", "impersonal pronoun"),
   ("INTG", "interrogative"), ("INJ", "interjection"), ("NEG", "negative"),
   ("P", "pronoun"), ("PART", "particle"), ("PRT", "particle"),
   ("PRT-N", "negative particle"), ("PREP", "preposition"),
   ("PERP", "personal pronoun"), ("POSP", "possessive pronoun"),
   ("REFP", "reflexive pronoun"), ("RELP", "relative pronoun"),
   ("A-NUI", "numeral adjective")]

/-- `GENDER` from `add_morphology.py`. -/
def GENDER : List (Char × String) :=
  [('M', "masculine"), ('F', "feminine"), ('N', "neuter"), ('C', "common")]

/-- Parsed morphology attributes (the dict built by `parse_morph`; the
Python key `type` is spelled `mtype` here because `type` is reserved). -/
structure Morph where
  language : String
  mtype : Option String
  gender : Option String
  number : Option String
  category : Option String
deriving DecidableEq

/-- The type mapping of `parse_morph`: known codes go through `MORPH_TYPE`,
unknown codes pass through lower-cased. -/
def typeOf (t : List Char) : String :=
  match lookupL MORPH_TYPE (String.mk (upperL t)) with
  | some lbl => lbl
  | none => String.mk (lowerL (upperL t))

/-- Component-1 handling of `parse_morph`: gender from the first character,
then `S` sets singular, then `P` sets plural (sequential writes, exactly as
in the source). -/
def applyGenderNumber (m : Morph) (c1 : List Char) : Morph :=
  let gc := upperL c1
  let ma :=
    match gc with
    | g0 :: _ =>
      match lookupL GENDER g0 with
      | some glbl => { m with gender := some glbl }
      | none => m
    | [] => m
  let mb := if 'S' ∈ gc then { ma with number := some "singular" } else ma
  if 'P' ∈ gc then { mb with number := some "plural" } else mb

/-- Component-2 handling of `parse_morph` (extra info / category). -/
def applyCategory (m : Morph) (c2 : List Char) : Morph :=
  let e := String.mk (upperL c2)
  if e = "P" then { m with category := some "person" }
  else if e = "L" then { m with category := some "location" }
  else if e = "T" then { m with category := some "title" }
  else if e = "LI" then { m with category := some "indeclinable" }
  else m

/-- `parse_morph` from `add_morphology.py`. -/
def parse_morph (morph_code : String) : Option Morph :=
  if morph_code = "" ∨ morph_code = "-" then none
  else
    match pySplit ':' morph_code.data with
    | l :: rest :: _ =>
      let components := pySplit '-' rest
      let m0 : Morph :=
        { language := String.mk l, mtype := none, gender := none
          number := none, category := none }
      let m1 :=
        match components with
        | t :: _ => { m0 with mtype := some (typeOf t) }
        | [] => m0
      let m2 :=
        match components with
        | _ :: c1 :: _ => applyGenderNumber m1 c1
        | _ => m1
      let m3 :=
        match components with
        | _ :: _ :: c2 :: _ => applyCategory m2 c2
        | _ => m2
      some m3
    | _ => none

theorem applyGenderNumber_number (m : Morph) (c1 : List Char) :
    (applyGenderNumber m c1).number
      = if 'P' ∈ upperL c1 then some "plural"
        else if 'S' ∈ upperL c1 then some "singular"
        else m.number := by
  unfold applyGenderNumber
  rcases hgc : upperL c1 with _ | ⟨g0, gtl⟩ <;> simp only
  · simp [hgc]
  · rcases hg : lookupL GENDER g0 with _ | glbl <;>
      simp only [hgc] <;> split_ifs <;> simp_all

theorem applyGenderNumber_gender (m : Morph) (c1 : List Char) :
    (applyGenderNumber m c1).gender
      = match upperL c1 with
        | [] => m.gender
        | g0 :: _ =>
          match lookupL GENDER g0 with
          | some glbl => some glbl
          | none => m.gender := by
  unfold applyGenderNumber
  rcases hgc : upperL c1 with _ | ⟨g0, gtl⟩ <;> simp only
  · simp [hgc]
  · rcases hg : lookupL GENDER g0 with _ | glbl <;>
      simp only [hgc, hg] <;> split_ifs <;> simp_all

theorem applyCategory_number (m : Morph) (c2 : List Char) :
    (applyCategory m c2).number = m.number := by
  dsimp only [applyCategory]
  split_ifs <;> rfl

theorem applyCategory_gender (m : Morph) (c2 : List Char) :
    (applyCategory m c2).gender = m.gender := by
  dsimp only [applyCategory]
  split_ifs <;> rfl

/-- C8: morphology number decoding — in the second dash component the `S`
check runs first and the `P` check second, so a component containing both
yields plural (last write wins); `S` alone yields singular, `P` alone
plural, and the gender is read from the component's first character
independently of the number checks. -/
theorem morph_number_decoding (code : String) (l rest : List Char)
    (tl : List (List Char)) (c0 c1 : List Char) (ctl : List (List Char))
    (h1 : pySplit ':' code.data = l :: rest :: tl)
    (h2 : pySplit '-' rest = c0 :: c1 :: ctl) :
    ∃ m, parse_morph code = some m
      ∧ ('S' ∈ upperL c1 → 'P' ∈ upperL c1 → m.number = some "plural")
      ∧ ('S' ∈ upperL c1 → 'P' ∉ upperL c1 → m.number = some "singular")
      ∧ ('S' ∉ upperL c1 → 'P' ∈ upperL c1 → m.number = some "plural")
      ∧ m.gender
          = (match upperL c1 with
             | [] => none
             | g0 :: _ => lookupL GENDER g0) := by
  have hne1 : code ≠ "" := by
    rintro rfl
    rw [show pySplit ':' ("" : String).data = [[]] from rfl] at h1
    simp at h1
  have hne2 : code ≠ "-" := by
    rintro rfl
    rw [show pySplit ':' ("-" : String).data = [['-']] from rfl] at h1
    simp at h1
  unfold parse_morph
  rw [if_neg (by simp [hne1, hne2]), h1]
  simp only [h2]
  rcases ctl with _ | ⟨c2, ctl'⟩
  · refine ⟨_, rfl, ?_, ?_, ?_, ?_⟩
    · intro hS hP
      rw [applyGenderNumber_number]
      simp [hP]
    · intro hS hP
      rw [applyGenderNumber_number]
      simp [hS, hP]
    · intro hS hP
      rw [applyGenderNumber_number]
      simp [hP]
    · rw [applyGenderNumber_gender]
      cases hgc : upperL c1 with
      | nil => simp [hgc]
      | cons g0 gtl =>
        rcases hg : lookupL GENDER g0 with _ | glbl <;> simp [hgc, hg]
  · refine ⟨_, rfl, ?_, ?_, ?_, ?_⟩
    · intro hS hP
      rw [applyCategory_number, applyGenderNumber_number]
      simp [hP]
    · intro hS hP
      rw [applyCategory_number, applyGenderNumber_number]
      simp [hS, hP]
    · intro hS hP
      rw [applyCategory_number, applyGenderNumber_number]
      simp [hP]
    · rw [applyCategory_gender, applyGenderNumber_gender]
      cases hgc : upperL c1 with
      | nil => simp [hgc]
      | cons g0 gtl =>
        rcases hg : lookupL GENDER g0 with _ | glbl <;> simp [hgc, hg]

theorem morph_number_decoding_witness :
    ∃ m, parse_morph "G:N-FSP" = some m
      ∧ ('S' ∈ upperL ['F', 'S', 'P'] → 'P' ∈ upperL ['F', 'S', 'P']
          → m.number = some "plural")
      ∧ ('S' ∈ upperL ['F', 'S', 'P'] → 'P' ∉ upperL ['F', 'S', 'P']
          → m.number = some "singular")
      ∧ ('S' ∉ upperL ['F', 'S', 'P'] → 'P' ∈ upperL ['F', 'S', 'P']
          → m.number = some "plural")
      ∧ m.gender
          = (match upperL ['F', 'S', 'P'] with
             | [] => none
             | g0 :: _ => lookupL GENDER g0) :=
  morph_number_decoding "G:N-FSP" ['G'] ['N', '-', 'F', 'S', 'P'] []
    ['N'] ['F', 'S', 'P'] [] (by decide) (by decide)

/-! ## add_morphology.py: text normalizer (normalize_greek)

The Unicode library calls are modelled by concrete finite tables: canonical
decomposition (`unicodedata.normalize('NFD', ·)`), the nonspacing-mark
category test (`unicodedata.category(c) == 'Mn'`), and `str.lower`, each
covering the Greek/Latin repertoire these scripts operate on and defaulting
to the identity elsewhere. -/

/-- Full canonical decompositions of the precomposed characters in the
modelled repertoire (each value is the complete NFD expansion). -/
def decompTable : List (Char × List Char) :=
  [('ά', ['α', '\u0301']), ('έ', ['ε', '\u0301']), ('ή', ['η', '\u0301']),
   ('ί', ['ι', '\u0301']), ('ό', ['ο', '\u0301']), ('ύ', ['υ', '\u0301']),
   ('ώ', ['ω', '\u0301']), ('ϊ', ['ι', '\u0308']), ('ϋ', ['υ', '\u0308']),
   ('Ά', ['Α', '\u0301']), ('Έ', ['Ε', '\u0301']), ('Ή', ['Η', '\u0301']),
   ('Ί', ['Ι', '\u0301']), ('Ό', ['Ο', '\u0301']), ('Ύ', ['Υ', '\u0301']),
   ('Ώ', ['Ω', '\u0301']),
   ('Ἀ', ['Α', '\u0313']), ('Ἁ', ['Α', '\u0314']),
   ('Ἐ', ['Ε', '\u0313']), ('Ὑ', ['Υ', '\u0314']),
   ('ἀ', ['α', '\u0313']), ('ἁ', ['α', '\u0314']),
   ('ἐ', ['ε', '\u0313']), ('ἑ', ['ε', '\u0314']),
   ('ὐ', ['υ', '\u0313']), ('ὑ', ['υ', '\u0314']),
   ('ὕ', ['υ', '\u0314', '\u0301']), ('ὗ', ['υ', '\u0314', '\u0342']),
   ('ᾶ', ['α', '\u0342']), ('ῦ', ['υ', '\u0342']),
   ('é', ['e', '\u0301']), ('á', ['a', '\u0301']), ('è', ['e', '\u0300'])]

/-- The combining (nonspacing-mark, category `Mn`) characters of the model. -/
def mnMarks : List Char :=
  ['\u0300', '\u0301', '\u0308', '\u0313', '\u0314', '\u0342', '\u0345']

/-- `unicodedata.category(c) == 'Mn'`. -/
def isMn (c : Char) : Bool := c ∈ mnMarks

/-- Simple lowercase mappings for the modelled repertoire (`str.lower`). -/
def lowerTable : List (Char × Char) :=
  [('A', 'a'), ('B', 'b'), ('C', 'c'), ('D', 'd'), ('E', 'e'), ('F', 'f'),
   ('G', 'g'), ('H', 'h'), ('I', 'i'), ('J', 'j'), ('K', 'k'), ('L', 'l'),
   ('M', 'm'), ('N', 'n'), ('O', 'o'), ('P', 'p'), ('Q', 'q'), ('R', 'r'),
   ('S', 's'), ('T', 't'), ('U', 'u'), ('V', 'v'), ('W', 'w'), ('X', 'x'),
   ('Y', 'y'), ('Z', 'z'),
   ('Α', 'α'), ('Β', 'β'), ('Γ', 'γ'), ('Δ', 'δ'), ('Ε', 'ε'), ('Ζ', 'ζ'),
   ('Η', 'η'), ('Θ', 'θ'), ('Ι', 'ι'), ('Κ', 'κ'), ('Λ', 'λ'), ('Μ', 'μ'),
   ('Ν', 'ν'), ('Ξ', 'ξ'), ('Ο', 'ο'), ('Π', 'π'), ('Ρ', 'ρ'), ('Σ', 'σ'),
   ('Τ', 'τ'), ('Υ', 'υ'), ('Φ', 'φ'), ('Χ', 'χ'), ('Ψ', 'ψ'), ('Ω', 'ω')]

/-- `str.lower` on one character. -/
def pyLowerChar (c : Char) : Char := (lookupL lowerTable c).getD c

/-- `str.lower` on a string. -/
def pyLower (s : List Char) : List Char := s.map pyLowerChar

/-- NFD of one character. -/
def pyNFDchar (c : Char) : List Char := (lookupL decompTable c).getD [c]

/-- `unicodedata.normalize('NFD', s)`. -/
def pyNFD (s : List Char) : List Char := (s.map pyNFDchar).join

/-- Scan for the first `)`, returning the remainder after it. -/
def skipToClose : List Char → Option (List Char)
  | [] => none
  | c :: r => if c = ')' then some r else skipToClose r

/-- Attempt the `[^)]+\)` part of the pattern `\([^)]+\)` at the head of the
list: at least one non-`)` character, then `)`.  Returns the remainder after
the closing paren when it matches. -/
def findClose : List Char → Option (List Char)
  | [] => none
  | c :: rest => if c = ')' then none else skipToClose rest

theorem skipToClose_length {l a : List Char} (h : skipToClose l = some a) :
    a.length < l.length := by
  induction l with
  | nil => simp [skipToClose] at h
  | cons c r ih =>
    by_cases hc : c = ')'
    · simp [skipToClose, hc] at h
      subst h
      exact Nat.lt_succ_self _
    · simp [skipToClose, hc] at h
      exact Nat.lt_trans (ih h) (Nat.lt_succ_self _)

theorem findClose_length {l a : List Char} (h : findClose l = some a) :
    a.length < l.length := by
  cases l with
  | nil => simp [findClose] at h
  | cons c rest =>
    by_cases hc : c = ')'
    · simp [findClose, hc] at h
    · simp [findClose, hc] at h
      exact Nat.lt_trans (skipToClose_length h) (Nat.lt_succ_self _)

/-- Fuelled scan of `re.sub(r'\([^)]+\)', '', text)`: at `(` try to complete
a match and jump past it, otherwise keep the character and advance one
position.  The fuel only bounds the recursion; one unit per character
scanned always suffices. -/
def stripParensAux : Nat → List Char → List Char
  | _, [] => []
  | 0, s => s
  | fuel + 1, c :: rest =>
    if c = '(' then
      match findClose rest with
      | some after => stripParensAux fuel after
      | none => c :: stripParensAux fuel rest
    else c :: stripParensAux fuel rest

/-- `re.sub(r'\([^)]+\)', '', text)`: delete every parenthetical segment,
scanning left to right exactly as `re.sub` does (on a failed match attempt
the scan advances one character). -/
def stripParens (s : List Char) : List Char := stripParensAux s.length s

theorem stripParensAux_congr :
    ∀ (n f₁ f₂ : Nat) (s : List Char), s.length ≤ n → s.length ≤ f₁ →
      s.length ≤ f₂ → stripParensAux f₁ s = stripParensAux f₂ s := by
  intro n
  induction n with
  | zero =>
    intro f₁ f₂ s hs _ _
    have : s = [] := List.length_eq_zero.mp (Nat.le_zero.mp hs)
    subst this
    cases f₁ <;> cases f₂ <;> rfl
  | succ n ih =>
    intro f₁ f₂ s hs h1 h2
    cases s with
    | nil => cases f₁ <;> cases f₂ <;> rfl
    | cons c rest =>
      simp only [List.length_cons] at hs h1 h2
      cases f₁ with
      | zero => omega
      | succ g₁ =>
        cases f₂ with
        | zero => omega
        | succ g₂ =>
          simp only [stripParensAux]
          by_cases hc : c = '('
          · rw [if_pos hc, if_pos hc]
            rcases hfc : findClose rest with _ | after
            · dsimp only
              rw [ih g₁ g₂ rest (by omega) (by omega) (by omega)]
            · dsimp only
              have hlt := findClose_length hfc
              rw [ih g₁ g₂ after (by omega) (by omega) (by omega)]
          · rw [if_neg hc, if_neg hc,
              ih g₁ g₂ rest (by omega) (by omega) (by omega)]

theorem stripParensAux_eq {fuel : Nat} {s : List Char} (h : s.length ≤ fuel) :
    stripParensAux fuel s = stripParens s :=
  stripParensAux_congr fuel fuel s.length s h h (le_refl _)

/-- Steps (b)-(d) of the normalizer: NFD-decompose, remove nonspacing
marks, lowercase. -/
def postNorm (z : List Char) : List Char :=
  pyLower ((pyNFD z).filter (fun c => !isMn c))

/-- `normalize_greek` from `add_morphology.py`: empty input yields the empty
key; otherwise strip parentheticals, NFD-decompose, drop combining marks,
lowercase. -/
def normalize_greek (text : List Char) : List Char :=
  if text = [] then []
  else postNorm (stripParens text)

theorem skipToClose_eq_none {l : List Char} : skipToClose l = none ↔ ')' ∉ l := by
  induction l with
  | nil => simp [skipToClose]
  | cons c r ih =>
    by_cases hc : c = ')'
    · simp [skipToClose, hc]
    · have hc' : ¬(')' = c) := fun h => hc h.symm
      simp [skipToClose, hc, ih, hc']

theorem findClose_eq_none_of_no_rparen {l : List Char} (h : ')' ∉ l) :
    findClose l = none := by
  cases l with
  | nil => rfl
  | cons c r =>
    have hc : c ≠ ')' := fun hh => h (hh ▸ List.mem_cons_self _ _)
    have hr : ')' ∉ r := fun hh => h (List.mem_cons_of_mem _ hh)
    simp [findClose, hc, skipToClose_eq_none.mpr hr]

theorem findClose_none_cases {l : List Char} (h : findClose l = none) :
    l = [] ∨ (∃ r, l = ')' :: r) ∨ (∃ c r, l = c :: r ∧ c ≠ ')' ∧ ')' ∉ r) := by
  cases l with
  | nil => exact Or.inl rfl
  | cons c r =>
    by_cases hc : c = ')'
    · exact Or.inr (Or.inl ⟨r, by rw [hc]⟩)
    · simp only [findClose, hc, if_false] at h
      exact Or.inr (Or.inr ⟨c, r, rfl, hc, skipToClose_eq_none.mp h⟩)

theorem skipToClose_sublist {l a : List Char} (h : skipToClose l = some a) :
    List.Sublist a l := by
  induction l with
  | nil => simp [skipToClose] at h
  | cons c r ih =>
    by_cases hc : c = ')'
    · simp [skipToClose, hc] at h
      subst h
      exact List.sublist_cons_self _ _
    · simp [skipToClose, hc] at h
      exact List.Sublist.cons _ (ih h)

theorem findClose_sublist {l a : List Char} (h : findClose l = some a) :
    List.Sublist a l := by
  cases l with
  | nil => simp [findClose] at h
  | cons c r =>
    by_cases hc : c = ')'
    · simp [findClose, hc] at h
    · simp [findClose, hc] at h
      exact List.Sublist.cons _ (skipToClose_sublist h)

theorem stripParens_nil : stripParens [] = [] := rfl

theorem stripParens_lparen_some {rest after : List Char}
    (hfc : findClose rest = some after) :
    stripParens ('(' :: rest) = stripParens after := by
  show stripParensAux ('(' :: rest).length ('(' :: rest) = stripParens after
  simp only [List.length_cons, stripParensAux, if_pos rfl, hfc]
  exact stripParensAux_eq (Nat.le_of_lt (findClose_length hfc))

theorem stripParens_lparen_none {rest : List Char} (hfc : findClose rest = none) :
    stripParens ('(' :: rest) = '(' :: stripParens rest := by
  show stripParensAux ('(' :: rest).length ('(' :: rest) = '(' :: stripParens rest
  simp only [List.length_cons, stripParensAux, if_pos rfl, hfc]
  rfl

theorem stripParens_cons_ne {c : Char} (h : c ≠ '(') (rest : List Char) :
    stripParens (c :: rest) = c :: stripParens rest := by
  show stripParensAux (c :: rest).length (c :: rest) = c :: stripParens rest
  simp only [List.length_cons, stripParensAux, if_neg h]
  rfl

/-- Induction principle following the recursion structure of the
parenthetical scan. -/
theorem stripParens_induction (motive : List Char → Prop)
    (h1 : motive [])
    (h2 : ∀ rest after, findClose rest = some after → motive after →
      motive ('(' :: rest))
    (h3 : ∀ rest, findClose rest = none → motive rest → motive ('(' :: rest))
    (h4 : ∀ c rest, c ≠ '(' → motive rest → motive (c :: rest)) :
    ∀ s, motive s := by
  have key : ∀ n s, List.length s ≤ n → motive s := by
    intro n
    induction n with
    | zero =>
      intro s hs
      have : s = [] := List.length_eq_zero.mp (Nat.le_zero.mp hs)
      subst this
      exact h1
    | succ n ih =>
      intro s hs
      cases s with
      | nil => exact h1
      | cons c rest =>
        simp only [List.length_cons] at hs
        by_cases hc : c = '('
        · subst hc
          rcases hfc : findClose rest with _ | after
          · exact h3 rest hfc (ih rest (by omega))
          · have := findClose_length hfc
            exact h2 rest after hfc (ih after (by omega))
        · exact h4 c rest hc (ih rest (by omega))
  exact fun s => key s.length s (le_refl _)

theorem stripParens_sublist (s : List Char) : List.Sublist (stripParens s) s := by
  induction s using stripParens_induction with
  | h1 => simp [stripParens_nil]
  | h2 rest after hfc ih =>
    rw [stripParens_lparen_some hfc]
    exact (ih.trans (findClose_sublist hfc)).trans (List.sublist_cons_self _ _)
  | h3 rest hfc ih =>
    rw [stripParens_lparen_none hfc]
    exact List.Sublist.cons₂ _ ih
  | h4 c rest h ih =>
    rw [stripParens_cons_ne h]
    exact List.Sublist.cons₂ _ ih

/-- There is no `\([^)]+\)` match anywhere in the list. -/
def NoM : List Char → Prop
  | [] => True
  | c :: rest => (c = '(' → findClose rest = none) ∧ NoM rest

theorem noM_of_stripParens_eq_self (s : List Char) : stripParens s = s → NoM s := by
  induction s using stripParens_induction with
  | h1 => intro _; trivial
  | h2 rest after hfc ih =>
    intro hfix
    exfalso
    rw [stripParens_lparen_some hfc] at hfix
    have hlen : (stripParens after).length = ('(' :: rest).length :=
      congrArg List.length hfix
    have h1 : (stripParens after).length ≤ after.length :=
      (stripParens_sublist after).length_le
    have h2 : after.length < rest.length := findClose_length hfc
    simp only [List.length_cons] at hlen
    omega
  | h3 rest hfc ih =>
    intro hfix
    rw [stripParens_lparen_none hfc] at hfix
    have htail : stripParens rest = rest := (List.cons.inj hfix).2
    exact ⟨fun _ => hfc, ih htail⟩
  | h4 c rest h ih =>
    intro hfix
    rw [stripParens_cons_ne h] at hfix
    have htail : stripParens rest = rest := (List.cons.inj hfix).2
    exact ⟨fun hc => absurd hc h, ih htail⟩

theorem stripParens_eq_self_of_noM (s : List Char) : NoM s → stripParens s = s := by
  induction s with
  | nil => intro _; exact stripParens_nil
  | cons c rest ih =>
    intro hnm
    obtain ⟨h1, h2⟩ := hnm
    by_cases hc : c = '('
    · subst hc
      rw [stripParens_lparen_none (h1 rfl), ih h2]
    · rw [stripParens_cons_ne hc, ih h2]

theorem findClose_stripParens_none {rest : List Char} (h : findClose rest = none) :
    findClose (stripParens rest) = none := by
  rcases findClose_none_cases h with hnil | ⟨r, hr⟩ | ⟨c, r, hcr, hc, hnr⟩
  · subst hnil
    rw [stripParens_nil]
    rfl
  · subst hr
    rw [stripParens_cons_ne (by decide)]
    simp [findClose]
  · subst hcr
    have hnotin : ')' ∉ (c :: r) := by
      intro hmem
      rcases List.mem_cons.mp hmem with h1 | h2
      · exact hc h1.symm
      · exact hnr h2
    have : ')' ∉ stripParens (c :: r) :=
      fun hmem => hnotin ((stripParens_sublist (c :: r)).subset hmem)
    exact findClose_eq_none_of_no_rparen this

theorem stripParens_idem (s : List Char) :
    stripParens (stripParens s) = stripParens s := by
  induction s using stripParens_induction with
  | h1 => rw [stripParens_nil, stripParens_nil]
  | h2 rest after hfc ih =>
    rw [stripParens_lparen_some hfc]
    exact ih
  | h3 rest hfc ih =>
    rw [stripParens_lparen_none hfc,
      stripParens_lparen_none (findClose_stripParens_none hfc), ih]
  | h4 c rest h ih =>
    rw [stripParens_cons_ne h, stripParens_cons_ne h, ih]

/-- Character-level fixpoint of the NFD / mark-strip / lowercase pipeline. -/
def normFixedChar (c : Char) : Bool :=
  (lookupL decompTable c).isNone && !isMn c && (lookupL lowerTable c).isNone

theorem decomp_values_ok :
    ∀ p ∈ decompTable, ∀ d ∈ p.2,
      isMn d = true ∨ normFixedChar (pyLowerChar d) = true := by decide

theorem lower_values_ok : ∀ p ∈ lowerTable, normFixedChar p.2 = true := by decide

/-- After NFD-expanding any character, every non-mark character of the
expansion lower-cases to a character on which the whole pipeline is the
identity. -/
theorem norm_output_fixed {c d : Char} (hd : d ∈ pyNFDchar c)
    (hmn : isMn d = false) : normFixedChar (pyLowerChar d) = true := by
  unfold pyNFDchar at hd
  rcases hc : lookupL decompTable c with _ | v
  · rw [hc] at hd
    simp at hd
    subst hd
    unfold pyLowerChar
    rcases hl : lookupL lowerTable d with _ | e
    · simp [normFixedChar, hc, hl, hmn]
    · simp only [hl, Option.getD_some]
      exact lower_values_ok (d, e) (lookupL_mem hl)
  · rw [hc] at hd
    simp at hd
    rcases decomp_values_ok (c, v) (lookupL_mem hc) d hd with h1 | h2
    · rw [h1] at hmn
      cases hmn
    · exact h2

theorem normFixedChar_nfd {c : Char} (h : normFixedChar c = true) :
    pyNFDchar c = [c] := by
  unfold normFixedChar at h
  unfold pyNFDchar
  rcases hc : lookupL decompTable c with _ | v
  · rfl
  · rw [hc] at h
    simp at h

theorem normFixedChar_not_mn {c : Char} (h : normFixedChar c = true) :
    isMn c = false := by
  unfold normFixedChar at h
  rcases hmn : isMn c
  · rfl
  · rw [hmn] at h
    simp at h

theorem normFixedChar_lower {c : Char} (h : normFixedChar c = true) :
    pyLowerChar c = c := by
  unfold normFixedChar at h
  unfold pyLowerChar
  rcases hc : lookupL lowerTable c with _ | v
  · rfl
  · rw [hc] at h
    simp at h

/-- The character-level action of `postNorm`. -/
def normChar (c : Char) : List Char :=
  pyLower ((pyNFDchar c).filter (fun d => !isMn d))

theorem postNorm_nil : postNorm [] = [] := by
  simp [postNorm, pyNFD, pyLower]

theorem postNorm_cons (c : Char) (r : List Char) :
    postNorm (c :: r) = normChar c ++ postNorm r := by
  simp [postNorm, normChar, pyNFD, pyLower, List.filter_append]

theorem postNorm_mem_fixed {z : List Char} {x : Char} (hx : x ∈ postNorm z) :
    normFixedChar x = true := by
  unfold postNorm pyLower at hx
  rcases List.mem_map.mp hx with ⟨d, hd, rfl⟩
  rcases List.mem_filter.mp hd with ⟨hdz, hmn⟩
  unfold pyNFD at hdz
  rcases List.mem_join.mp hdz with ⟨l, hl, hdl⟩
  rcases List.mem_map.mp hl with ⟨c, _, rfl⟩
  exact norm_output_fixed hdl (by simpa using hmn)

theorem normChar_of_fixed {c : Char} (h : normFixedChar c = true) :
    normChar c = [c] := by
  unfold normChar
  rw [normFixedChar_nfd h]
  simp [pyLower, normFixedChar_not_mn h, normFixedChar_lower h]

theorem postNorm_of_all_fixed {l : List Char}
    (h : ∀ x ∈ l, normFixedChar x = true) : postNorm l = l := by
  induction l with
  | nil => exact postNorm_nil
  | cons c r ih =>
    rw [postNorm_cons, normChar_of_fixed (h c (List.mem_cons_self _ _)),
      ih (fun x hx => h x (List.mem_cons_of_mem _ hx))]
    rfl

theorem normChar_lparen : normChar '(' = ['('] := by decide

theorem normChar_rparen : normChar ')' = [')'] := by decide

theorem decomp_no_paren :
    ∀ p ∈ decompTable, p.1 ≠ '(' ∧ p.1 ≠ ')'
      ∧ ∀ d ∈ p.2, d ≠ '(' ∧ d ≠ ')' := by decide

theorem lower_no_paren :
    ∀ p ∈ lowerTable, p.1 ≠ '(' ∧ p.1 ≠ ')' ∧ p.2 ≠ '(' ∧ p.2 ≠ ')' := by decide

theorem pyLowerChar_paren_iff {d : Char} (hp : d ≠ '(' ∧ d ≠ ')') :
    pyLowerChar d ≠ '(' ∧ pyLowerChar d ≠ ')' := by
  unfold pyLowerChar
  rcases hl : lookupL lowerTable d with _ | e
  · simpa using hp
  · have := lower_no_paren (d, e) (lookupL_mem hl)
    simpa using ⟨this.2.2.1, this.2.2.2⟩

theorem pyNFDchar_paren_iff {c d : Char} (hc : c ≠ '(' ∧ c ≠ ')')
    (hd : d ∈ pyNFDchar c) : d ≠ '(' ∧ d ≠ ')' := by
  unfold pyNFDchar at hd
  rcases hcc : lookupL decompTable c with _ | v
  · rw [hcc] at hd
    simp at hd
    subst hd
    exact hc
  · rw [hcc] at hd
    simp at hd
    exact (decomp_no_paren (c, v) (lookupL_mem hcc)).2.2 d hd

theorem normChar_no_paren {c : Char} (hc : c ≠ '(' ∧ c ≠ ')') :
    ∀ x ∈ normChar c, x ≠ '(' ∧ x ≠ ')' := by
  intro x hx
  unfold normChar pyLower at hx
  rcases List.mem_map.mp hx with ⟨d, hd, rfl⟩
  rcases List.mem_filter.mp hd with ⟨hdc, _⟩
  exact pyLowerChar_paren_iff (pyNFDchar_paren_iff hc hdc)

theorem normChar_no_rparen {c : Char} (hc : c ≠ ')') :
    ∀ x ∈ normChar c, x ≠ ')' := by
  intro x hx
  by_cases hcl : c = '('
  · subst hcl
    rw [normChar_lparen] at hx
    simp at hx
    subst hx
    decide
  · exact (normChar_no_paren ⟨hcl, hc⟩ x hx).2

theorem postNorm_no_rparen {z : List Char} (h : ')' ∉ z) : ')' ∉ postNorm z := by
  induction z with
  | nil => simp [postNorm_nil]
  | cons c r ih =>
    rw [postNorm_cons]
    intro hmem
    rcases List.mem_append.mp hmem with h1 | h2
    · exact normChar_no_rparen
        (fun hh => h (hh ▸ List.mem_cons_self _ _)) _ h1 rfl
    · exact ih (fun hh => h (List.mem_cons_of_mem _ hh)) h2

theorem noM_append_no_lparen {l₁ l₂ : List Char}
    (h1 : ∀ x ∈ l₁, x ≠ '(') (h2 : NoM l₂) : NoM (l₁ ++ l₂) := by
  induction l₁ with
  | nil => exact h2
  | cons c r ih =>
    refine ⟨fun hc => absurd hc (h1 c (List.mem_cons_self _ _)), ?_⟩
    exact ih (fun x hx => h1 x (List.mem_cons_of_mem _ hx))

theorem noM_postNorm {z : List Char} (h : NoM z) : NoM (postNorm z) := by
  induction z with
  | nil => rw [postNorm_nil]; trivial
  | cons c r ih =>
    obtain ⟨hc, hr⟩ := h
    rw [postNorm_cons]
    by_cases hcp : c = '('
    · subst hcp
      rw [normChar_lparen]
      refine ⟨fun _ => ?_, ih hr⟩
      have hfr := hc rfl
      rcases findClose_none_cases hfr with hnil | ⟨r', hr'⟩ | ⟨d, r', hdr, hd, hnr⟩
      · subst hnil
        rw [postNorm_nil]
        rfl
      · subst hr'
        rw [postNorm_cons, normChar_rparen]
        rfl
      · subst hdr
        have hnotin : ')' ∉ (d :: r') := by
          intro hmem
          rcases List.mem_cons.mp hmem with h1 | h2
          · exact hd h1.symm
          · exact hnr h2
        exact findClose_eq_none_of_no_rparen (postNorm_no_rparen hnotin)
    · refine noM_append_no_lparen ?_ (ih hr)
      intro x hx
      by_cases hcr : c = ')'
      · subst hcr
        rw [normChar_rparen] at hx
        simp at hx
        subst hx
        decide
      · exact (normChar_no_paren ⟨hcp, hcr⟩ x hx).1

/-- C3: `normalize_greek` is idempotent — applying the normalizer (strip
parentheticals, NFD-decompose, remove nonspacing marks, lowercase) to its
own output returns that output unchanged, for every input string. -/
theorem normalize_greek_idempotent (s : List Char) :
    normalize_greek (normalize_greek s) = normalize_greek s := by
  unfold normalize_greek
  by_cases hs : s = []
  · simp [hs]
  · rw [if_neg hs]
    by_cases hy0 : postNorm (stripParens s) = []
    · simp [hy0]
    · rw [if_neg hy0]
      have hNoM : NoM (stripParens s) :=
        noM_of_stripParens_eq_self _ (stripParens_idem s)
      have hNoMy : NoM (postNorm (stripParens s)) := noM_postNorm hNoM
      rw [stripParens_eq_self_of_noM _ hNoMy]
      exact postNorm_of_all_fixed (fun x hx => postNorm_mem_fixed hx)

/-! ## add_morphology.py: lexicon entries, loader and resolver -/

/-- A TBESG lexicon entry as built by `load_tbesg`. -/
structure Entry where
  estrong : String
  strong : String
  greek : String
  transliteration : String
  morph_code : String
  morph : Option Morph
  gloss : String
deriving DecidableEq

/-- A vocabulary word record: `strongs` and `id` are optional JSON keys read
through `.get`, `greek` through `.get` with default `''`. -/
structure VocabWord where
  strongs : Option String
  id : Option String
  greek : String
  morphology : Option Morph
deriving DecidableEq

/-- `MANUAL_STRONGS` from `add_morphology.py`. -/
def MANUAL_STRONGS : List (String × String) :=
  [("οὕτω(ς)", "G3779"), ("ἀπόλλυμι", "G622"),
   ("εὐαγγελίζω", "G2097"), ("δείκνυμι", "G1166")]

/-- `get_active_form` from `add_morphology.py`: suffix rewrites tried in
source order (`-ομαι`, then `-εομαι` — unreachable, since any `-εομαι` form
already ends in `-ομαι` — then `-μαι`). -/
def get_active_form (middle_form : List Char) : Option (List Char) :=
  if middle_form = [] then none
  else if List.isSuffixOf "ομαι".data middle_form then
    some (middle_form.take (middle_form.length - 4) ++ "ω".data)
  else if List.isSuffixOf "εομαι".data middle_form then
    some (middle_form.take (middle_form.length - 5) ++ "εω".data)
  else if List.isSuffixOf "μαι".data middle_form then
    some (middle_form.take (middle_form.length - 3) ++ "μι".data)
  else none

/-- Copy the entry's morphology onto the word when the entry has one
(`if entry['morph']: word['morphology'] = entry['morph']`). -/
def withMorph (w : VocabWord) (e : Entry) : VocabWord :=
  if e.morph.isSome then { w with morphology := e.morph } else w

/-- Which counter a successful resolution increments. -/
inductive MatchKind where
  | byStrong : MatchKind
  | byGreek : MatchKind
deriving DecidableEq

/-- The per-word resolution logic of `main` in `add_morphology.py` (the body
of the `for word in vocab_data['words']` loop): manual override first
(`if`), then exact Strong's match (`elif`), then normalized-Greek match
(`else`), then — only when the word is not a manual-override key — the
derived active form.  Returns the updated word and the strategy that
matched; `none` means the word is reported unmatched. -/
def resolveWord (lexS lexG : List (String × Entry)) (w : VocabWord) :
    VocabWord × Option MatchKind :=
  let strongs := w.strongs.getD (w.id.getD "")
  let greek := w.greek
  match lookupL MANUAL_STRONGS greek with
  | some manual_strong =>
    match lookupL lexS manual_strong with
    | some e =>
      (withMorph { w with strongs := some manual_strong } e, some MatchKind.byStrong)
    | none => (w, none)
  | none =>
    match lookupL lexS strongs with
    | some e => (withMorph w e, some MatchKind.byStrong)
    | none =>
      match lookupL lexG (String.mk (normalize_greek greek.data)) with
      | some e =>
        (withMorph { w with strongs := some e.strong } e, some MatchKind.byGreek)
      | none =>
        match get_active_form greek.data with
        | some active =>
          match lookupL lexG (String.mk (normalize_greek active)) with
          | some e =>
            (withMorph { w with strongs := some e.strong } e, some MatchKind.byGreek)
          | none => (w, none)
        | none => (w, none)

/-- C2: resolver precedence — a word whose surface form is a manual-override
key, with the override target present in the by-Strong's index, resolves via
the override and gets the override's canonical id written to its `strongs`
field, even when its own raw identifier matches a (possibly different)
lexicon entry. -/
theorem resolver_override_precedence (lexS lexG : List (String × Entry))
    (w : VocabWord) (ms : String) (e e' : Entry)
    (h1 : lookupL MANUAL_STRONGS w.greek = some ms)
    (h2 : lookupL lexS ms = some e)
    (h3 : lookupL lexS (w.strongs.getD (w.id.getD "")) = some e') :
    resolveWord lexS lexG w
      = (withMorph { w with strongs := some ms } e, some MatchKind.byStrong) := by
  unfold resolveWord
  simp only [h1, h2]

/-- Lexicon entry targeted by the `ἀπόλλυμι` manual override. -/
def lexEntry622 : Entry :=
  { estrong := "G0622", strong := "G622", greek := "ἀπολλύω"
    transliteration := "apollyo", morph_code := "G:V"
    morph := parse_morph "G:V", gloss := "to destroy" }

/-- A different lexicon entry, reachable from the word's raw identifier. -/
def lexEntry999 : Entry :=
  { estrong := "G0999", strong := "G999", greek := "βοανηργές"
    transliteration := "x", morph_code := "G:N-M"
    morph := parse_morph "G:N-M", gloss := "other" }

/-- Demo by-Strong's index containing both the override target and the
entry matching the word's raw identifier. -/
def lexSdemo : List (String × Entry) := [("G622", lexEntry622), ("G999", lexEntry999)]

/-- A word whose surface form is a manual-override key but whose raw
identifier points at a different entry. -/
def wordApollymi : VocabWord :=
  { strongs := some "G999", id := none, greek := "ἀπόλλυμι", morphology := none }

theorem resolver_override_precedence_witness :
    (lookupL MANUAL_STRONGS wordApollymi.greek = some "G622"
      ∧ lookupL lexSdemo "G622" = some lexEntry622
      ∧ lookupL lexSdemo (wordApollymi.strongs.getD (wordApollymi.id.getD ""))
          = some lexEntry999
      ∧ lexEntry999 ≠ lexEntry622)
    ∧ resolveWord lexSdemo [] wordApollymi
        = (withMorph { wordApollymi with strongs := some "G622" } lexEntry622,
            some MatchKind.byStrong) :=
  ⟨⟨by decide, by decide, by decide, by decide⟩,
    resolver_override_precedence lexSdemo [] wordApollymi "G622"
      lexEntry622 lexEntry999 (by decide) (by decide) (by decide)⟩

/-- Demo by-Strong's index lacking the override target `G622` but containing
an entry for the word's raw identifier `G999`. -/
def lexSmissing : List (String × Entry) := [("G999", lexEntry999)]

/-- C7 counterexample: the surface form hits the manual-override table, the
override target is absent from the index, and an exact-identifier match
exists (`G999`) — yet the resolver attempts nothing further and returns the
word unchanged and unmatched. -/
theorem resolver_manual_miss_counterexample :
    lookupL MANUAL_STRONGS wordApollymi.greek = some "G622"
    ∧ lookupL lexSmissing "G622" = none
    ∧ lookupL lexSmissing (wordApollymi.strongs.getD (wordApollymi.id.getD ""))
        = some lexEntry999
    ∧ resolveWord lexSmissing [] wordApollymi = (wordApollymi, none) := by
  refine ⟨by decide, by decide, by decide, ?_⟩
  decide

/-- C7 (amended): when the surface form is a manual-override key whose
target id is absent from the by-Strong's index, the resolver attempts no
further strategy — the word is returned unchanged and unmatched, whatever
the other indexes contain. -/
theorem resolver_manual_miss_no_fallback (lexS lexG : List (String × Entry))
    (w : VocabWord) (ms : String)
    (h1 : lookupL MANUAL_STRONGS w.greek = some ms)
    (h2 : lookupL lexS ms = none) :
    resolveWord lexS lexG w = (w, none) := by
  unfold resolveWord
  simp only [h1, h2]

theorem resolver_manual_miss_no_fallback_witness :
    (lookupL MANUAL_STRONGS wordApollymi.greek = some "G622"
      ∧ lookupL lexSmissing "G622" = none)
    ∧ resolveWord lexSmissing [("ignored", lexEntry999)] wordApollymi
        = (wordApollymi, none) :=
  ⟨⟨by decide, by decide⟩,
    resolver_manual_miss_no_fallback lexSmissing [("ignored", lexEntry999)]
      wordApollymi "G622" (by decide) (by decide)⟩

/-- Dict insertion guarded by `not in` (insert only if the key is absent),
as used for both lexicon indexes. -/
def insertIfAbsent {β : Type} (m : List (String × β)) (k : String) (v : β) :
    List (String × β) :=
  if (lookupL m k).isSome then m else (k, v) :: m

/-- The canonical Strong's id of an identifier field: the `^G\d+` check, the
letter-suffix cut (`(G\d+)` keeps only `G` plus the leading digits), and the
leading-zero drop via `int(...)`.  `none` when the field does not match. -/
def canonicalStrong (estrong : List Char) : Option String :=
  match estrong with
  | 'G' :: rest =>
    let digits := rest.takeWhile Char.isDigit
    if digits = [] then none
    else some ("G" ++ toString (digits.foldl (fun acc d => acc * 10 + (d.toNat - 48)) 0))
  | _ => none

/-- State of the `load_tbesg` line loop: the header flag and the two
indexes. -/
structure TState where
  in_data : Bool
  byStrong : List (String × Entry)
  byGreek : List (String × Entry)
deriving DecidableEq

/-- Indexing of one comma-separated surface form into `lexicon_by_greek`:
strip it, skip if empty, normalize, skip if the key is empty, insert only if
absent. -/
def insertGreekForm (entry : Entry) (m : List (String × Entry))
    (form : List Char) : List (String × Entry) :=
  let form' := pyStripChars form
  if form' = [] then m
  else
    let norm := normalize_greek form'
    if norm = [] then m
    else insertIfAbsent m (String.mk norm) entry

/-- One iteration of the `for line in f` loop of `load_tbesg`, after the
initial `line.strip()`. -/
def tbesgStepL (st : TState) (line : List Char) : TState :=
  if List.isPrefixOf "eStrong\t".data line then { st with in_data := true }
  else if !st.in_data then st
  else if line = [] || List.isPrefixOf "$".data line
      || List.isPrefixOf "-".data line then st
  else
    let fields := pySplit '\t' line
    if fields.length < 7 then st
    else
      let estrong := pyStripChars (fields.getD 0 [])
      let greek := if fields.length > 3 then pyStripChars (fields.getD 3 []) else []
      let transliteration := if fields.length > 4 then pyStripChars (fields.getD 4 []) else []
      let morph := if fields.length > 5 then pyStripChars (fields.getD 5 []) else []
      let gloss := if fields.length > 6 then pyStripChars (fields.getD 6 []) else []
      match canonicalStrong estrong with
      | none => st
      | some normalized_strong =>
        let entry : Entry :=
          { estrong := String.mk estrong, strong := normalized_strong
            greek := String.mk greek, transliteration := String.mk transliteration
            morph_code := String.mk morph, morph := parse_morph (String.mk morph)
            gloss := String.mk gloss }
        { in_data := st.in_data
          byStrong := insertIfAbsent st.byStrong normalized_strong entry
          byGreek := (pySplit ',' greek).foldl (insertGreekForm entry) st.byGreek }

/-- One iteration of the `for line in f` loop of `load_tbesg`. -/
def tbesgStep (st : TState) (rawLine : String) : TState :=
  tbesgStepL st (pyStripChars rawLine.data)

/-- `load_tbesg` from `add_morphology.py`, over the file's lines. -/
def load_tbesg (lines : List String) : TState :=
  lines.foldl tbesgStep { in_data := false, byStrong := [], byGreek := [] }

theorem insertIfAbsent_preserves {β : Type} {m : List (String × β)}
    {k : String} {v : β} (k' : String) (v' : β)
    (h : lookupL m k = some v) : lookupL (insertIfAbsent m k' v') k = some v := by
  unfold insertIfAbsent
  by_cases hl : (lookupL m k').isSome
  · rw [if_pos hl]
    exact h
  · rw [if_neg hl]
    show lookupL ((k', v') :: m) k = some v
    unfold lookupL
    by_cases hk : k = k'
    · subst hk
      simp [h] at hl
    · rw [if_neg hk]
      exact h

theorem insertGreekForm_preserves {entry : Entry} {m : List (String × Entry)}
    {k : String} {v : Entry} (form : List Char)
    (h : lookupL m k = some v) :
    lookupL (insertGreekForm entry m form) k = some v := by
  unfold insertGreekForm
  dsimp only
  split_ifs
  · exact h
  · exact h
  · exact insertIfAbsent_preserves _ _ h

theorem foldl_insertGreekForm_preserves {entry : Entry} {k : String} {v : Entry}
    (forms : List (List Char)) :
    ∀ (m : List (String × Entry)), lookupL m k = some v →
      lookupL (forms.foldl (insertGreekForm entry) m) k = some v := by
  induction forms with
  | nil => intro m h; exact h
  | cons f rest ih =>
    intro m h
    exact ih _ (insertGreekForm_preserves f h)

theorem tbesgStepL_preserves {st : TState} {line : List Char} {k kg : String}
    {e eg : Entry}
    (hs : lookupL st.byStrong k = some e)
    (hg : lookupL st.byGreek kg = some eg) :
    lookupL (tbesgStepL st line).byStrong k = some e
    ∧ lookupL (tbesgStepL st line).byGreek kg = some eg := by
  unfold tbesgStepL
  dsimp only
  split
  · exact ⟨hs, hg⟩
  split
  · exact ⟨hs, hg⟩
  split
  · exact ⟨hs, hg⟩
  split
  · exact ⟨hs, hg⟩
  split
  · exact ⟨hs, hg⟩
  · exact ⟨insertIfAbsent_preserves _ _ hs,
      foldl_insertGreekForm_preserves _ _ hg⟩

theorem tbesgStep_preserves {st : TState} {line : String} {k kg : String}
    {e eg : Entry}
    (hs : lookupL st.byStrong k = some e)
    (hg : lookupL st.byGreek kg = some eg) :
    lookupL (tbesgStep st line).byStrong k = some e
    ∧ lookupL (tbesgStep st line).byGreek kg = some eg :=
  tbesgStepL_preserves hs hg

theorem load_fold_preserves (more : List String) {k kg : String} {e eg : Entry} :
    ∀ (st : TState), lookupL st.byStrong k = some e →
      lookupL st.byGreek kg = some eg →
      lookupL (more.foldl tbesgStep st).byStrong k = some e
      ∧ lookupL (more.foldl tbesgStep st).byGreek kg = some eg := by
  induction more with
  | nil => intro st hs hg; exact ⟨hs, hg⟩
  | cons l rest ih =>
    intro st hs hg
    obtain ⟨hs', hg'⟩ := @tbesgStep_preserves st l k kg e eg hs hg
    exact ih _ hs' hg'

/-- Header line of the demo lexicon fragment. -/
def tbesgHeader : String :=
  "eStrong\tdStrong\tuStrong\tGreek\tTransliteration\tMorph\tGloss"

/-- Demo data line with identifier field `G0846`. -/
def tbesgLineA : String := "G0846\tG0846\tG0846\tα\tautos\tG:P\the, she, it"

/-- Demo data line with identifier field `G846`, colliding canonically. -/
def tbesgLineB : String := "G846\tG846\tG846\tβ\tbeta\tG:N-M\tself"

/-- C4: first-write-wins with canonical-id collapse — identifier fields
`G0846` and `G846` both canonicalize to `G846`; any binding present in
either index after loading a prefix of the file is still present, unchanged,
after loading the rest (later colliding entries are discarded, never
overwritten); and on the two demo lines the retained entry for key `G846`
is the first-seen one (identifier field `G0846`). -/
theorem lexicon_first_write_wins (lines more : List String) (k kg : String)
    (e eg : Entry)
    (hs : lookupL (load_tbesg lines).byStrong k = some e)
    (hg : lookupL (load_tbesg lines).byGreek kg = some eg) :
    lookupL (load_tbesg (lines ++ more)).byStrong k = some e
    ∧ lookupL (load_tbesg (lines ++ more)).byGreek kg = some eg
    ∧ canonicalStrong "G0846".data = some "G846"
    ∧ canonicalStrong "G846".data = some "G846"
    ∧ (lookupL (load_tbesg [tbesgHeader, tbesgLineA, tbesgLineB]).byStrong "G846").map
        Entry.estrong = some "G0846" := by
  unfold load_tbesg at *
  rw [List.foldl_append]
  obtain ⟨h1, h2⟩ := load_fold_preserves more _ hs hg
  exact ⟨h1, h2, by decide, by decide, by decide⟩

/-- The entry built from `tbesgLineA`, exactly as `load_tbesg` builds it. -/
def demoEntryA : Entry :=
  { estrong := "G0846", strong := "G846", greek := "α"
    transliteration := "autos", morph_code := "G:P"
    morph := parse_morph "G:P", gloss := "he, she, it" }

theorem lexicon_first_write_wins_witness :
    (lookupL (load_tbesg [tbesgHeader, tbesgLineA]).byStrong "G846" = some demoEntryA
      ∧ lookupL (load_tbesg [tbesgHeader, tbesgLineA]).byGreek "α" = some demoEntryA)
    ∧ (lookupL (load_tbesg ([tbesgHeader, tbesgLineA] ++ [tbesgLineB])).byStrong "G846"
        = some demoEntryA
      ∧ lookupL (load_tbesg ([tbesgHeader, tbesgLineA] ++ [tbesgLineB])).byGreek "α"
        = some demoEntryA
      ∧ canonicalStrong "G0846".data = some "G846"
      ∧ canonicalStrong "G846".data = some "G846"
      ∧ (lookupL (load_tbesg [tbesgHeader, tbesgLineA, tbesgLineB]).byStrong "G846").map
          Entry.estrong = some "G0846") :=
  ⟨⟨by decide, by decide⟩,
    lexicon_first_write_wins [tbesgHeader, tbesgLineA] [tbesgLineB] "G846" "α"
      demoEntryA demoEntryA (by decide) (by decide)⟩

/-! ## fetch_greek_verses.py: verse tiering -/

/-- Python `str.split()` with no separator: split on whitespace runs,
discarding empty segments.  One unit of fuel per character scanned always
suffices. -/
def pySplitWsAux : Nat → List Char → List (List Char)
  | _, [] => []
  | 0, _ => []
  | fuel + 1, c :: rest =>
    if isPySpace c then pySplitWsAux fuel rest
    else
      (c :: rest.takeWhile (fun d => !isPySpace d))
        :: pySplitWsAux fuel (rest.dropWhile (fun d => !isPySpace d))

/-- `greek_text.split()`. -/
def pySplitWs (s : List Char) : List (List Char) := pySplitWsAux s.length s

/-- `len(greek_text.split())` from `main` of `fetch_greek_verses.py`. -/
def word_count (greek_text : List Char) : Nat := (pySplitWs greek_text).length

/-- The tier assignment of `main` in `fetch_greek_verses.py`:
`1` if the word count is at most 10, `2` if at most 20, else `3`. -/
def tierOf (wc : Nat) : Nat :=
  if wc ≤ 10 then 1 else if wc ≤ 20 then 2 else 3

/-- Tier of a verse from its joined surface text. -/
def assignTier (greek_text : List Char) : Nat := tierOf (word_count greek_text)

/-- C9: tiering boundaries are inclusive — word counts 10, 11, 20, 21 map to
tiers 1, 2, 2, 3, and in general the tier is 1 iff the count is at most 10,
2 iff it is between 11 and 20, and 3 iff it exceeds 20. -/
theorem tier_boundaries (t : List Char) :
    (word_count t = 10 → assignTier t = 1)
    ∧ (word_count t = 11 → assignTier t = 2)
    ∧ (word_count t = 20 → assignTier t = 2)
    ∧ (word_count t = 21 → assignTier t = 3)
    ∧ (word_count t ≤ 10 → assignTier t = 1)
    ∧ (10 < word_count t → word_count t ≤ 20 → assignTier t = 2)
    ∧ (20 < word_count t → assignTier t = 3) := by
  refine ⟨?_, ?_, ?_, ?_, ?_, ?_, ?_⟩ <;>
    (intro h
     try intro h'
     unfold assignTier tierOf
     split_ifs <;> omega)

theorem tier_boundaries_witness :
    assignTier "a b c d e f g h i j".data = 1
    ∧ assignTier "a b c d e f g h i j k".data = 2
    ∧ assignTier "a b c d e f g h i j k l m n o p q r s t".data = 2
    ∧ assignTier "a b c d e f g h i j k l m n o p q r s t u".data = 3 :=
  ⟨(tier_boundaries _).1 (by decide),
   (tier_boundaries _).2.1 (by decide),
   (tier_boundaries _).2.2.1 (by decide),
   (tier_boundaries _).2.2.2.1 (by decide)⟩

/-! ## fetch_translations.py: translation quality heuristic

The five patterns of `is_awkward_translation` are regular expressions whose
quantifiers all apply to single character classes, so they are embedded as a
small backtracking matcher over an explicit syntax with greedy starred
classes, word boundaries and anchors, with `re.search` trying every start
position from the left. -/

/-- Regular-expression syntax needed by the five awkwardness patterns. -/
inductive RE where
  | eps : RE
  | cls : (Char → Bool) → RE
  | seq : RE → RE → RE
  | alt : RE → RE → RE
  | many : (Char → Bool) → RE
  | many1 : (Char → Bool) → RE
  | bound : RE
  | bol : RE
  | eol : RE

/-- Python `\w` (ASCII part): word characters for `\b`. -/
def isWordChar (c : Char) : Bool :=
  ('a' ≤ c && c ≤ 'z') || ('A' ≤ c && c ≤ 'Z') || ('0' ≤ c && c ≤ '9') || c = '_'

/-- `\b`: exactly one side of the current position is a word character. -/
def atBoundary (prev : Option Char) (s : List Char) : Bool :=
  (match prev with | some p => isWordChar p | none => false)
    != (match s with | c :: _ => isWordChar c | [] => false)

/-- Greedy match of a starred class, longest first, with backtracking into
the continuation. -/
def manyK (p : Char → Bool) (prev : Option Char) (s : List Char)
    (k : Option Char → List Char → Bool) : Bool :=
  match s with
  | [] => k prev []
  | c :: rest =>
    if p c then (manyK p (some c) rest k || k prev (c :: rest))
    else k prev (c :: rest)

/-- Backtracking matcher in continuation style.  `prev` is the character
just before the current position (for `^` and `\b`); `$` matches at the end
of the string or before a final newline, as in Python without `MULTILINE`. -/
def reM : RE → Option Char → List Char → (Option Char → List Char → Bool) → Bool
  | RE.eps, prev, s, k => k prev s
  | RE.cls p, _, s, k =>
    match s with
    | [] => false
    | c :: rest => p c && k (some c) rest
  | RE.seq a b, prev, s, k => reM a prev s (fun p' s' => reM b p' s' k)
  | RE.alt a b, prev, s, k => reM a prev s k || reM b prev s k
  | RE.many p, prev, s, k => manyK p prev s k
  | RE.many1 p, prev, s, k =>
    match s with
    | [] => false
    | c :: rest => p c && manyK p (some c) rest k
  | RE.bound, prev, s, k => atBoundary prev s && k prev s
  | RE.bol, prev, s, k =>
    (match prev with | none => true | some _ => false) && k prev s
  | RE.eol, prev, s, k =>
    (match s with | [] => true | ['\n'] => true | _ => false) && k prev s

/-- `re.search`: try a match at every position, from the left. -/
def searchAux (r : RE) : Option Char → List Char → Bool
  | prev, [] => reM r prev [] (fun _ _ => true)
  | prev, c :: rest =>
    reM r prev (c :: rest) (fun _ _ => true) || searchAux r (some c) rest

/-- `re.search(pattern, s) is not None`. -/
def reSearch (r : RE) (s : List Char) : Bool := searchAux r none s

/-- A literal string as a regular expression. -/
def litRE : List Char → RE
  | [] => RE.eps
  | [c] => RE.cls (fun d => d = c)
  | c :: rest => RE.seq (RE.cls (fun d => d = c)) (litRE rest)

/-- `c` is an ASCII uppercase letter (`[A-Z]`). -/
def isUpperAZ (c : Char) : Bool := 'A' ≤ c && c ≤ 'Z'

/-- Pattern 1 of `is_awkward_translation`:
`\b[A-Z][a-z]+\s+[a-z]+\s+[A-Z]` (random caps). -/
def awkPat1 : RE :=
  RE.seq RE.bound (RE.seq (RE.cls isUpperAZ)
    (RE.seq (RE.many1 isAsciiLower) (RE.seq (RE.many1 isPySpace)
      (RE.seq (RE.many1 isAsciiLower)
        (RE.seq (RE.many1 isPySpace) (RE.cls isUpperAZ))))))

/-- Pattern 2: `\.\s*[a-z]+$` (lowercase word after period at end). -/
def awkPat2 : RE :=
  RE.seq (RE.cls (fun c => c = '.'))
    (RE.seq (RE.many isPySpace) (RE.seq (RE.many1 isAsciiLower) RE.eol))

/-- Pattern 3: `^[A-Z][a-z]+\s+[a-z]+\s+And\b`. -/
def awkPat3 : RE :=
  RE.seq RE.bol (RE.seq (RE.cls isUpperAZ)
    (RE.seq (RE.many1 isAsciiLower) (RE.seq (RE.many1 isPySpace)
      (RE.seq (RE.many1 isAsciiLower)
        (RE.seq (RE.many1 isPySpace) (RE.seq (litRE "And".data) RE.bound))))))

/-- Pattern 4: `\b(the|a|an|of|in|to)\s+\.$` (article before period). -/
def awkPat4 : RE :=
  RE.seq RE.bound
    (RE.seq (RE.alt (litRE "the".data) (RE.alt (litRE "a".data)
        (RE.alt (litRE "an".data) (RE.alt (litRE "of".data)
          (RE.alt (litRE "in".data) (litRE "to".data))))))
      (RE.seq (RE.many1 isPySpace) (RE.seq (RE.cls (fun c => c = '.')) RE.eol)))

/-- Pattern 5: `\bHis\s+[a-z]`. -/
def awkPat5 : RE :=
  RE.seq RE.bound
    (RE.seq (litRE "His".data) (RE.seq (RE.many1 isPySpace) (RE.cls isAsciiLower)))

/-- The ordered pattern list `awkward_patterns`. -/
def awkward_patterns : List RE := [awkPat1, awkPat2, awkPat3, awkPat4, awkPat5]

/-- `is_awkward_translation` from `fetch_translations.py`: empty input is
awkward, otherwise a translation is awkward iff some pattern matches. -/
def is_awkward_translation (translation : List Char) : Bool :=
  if translation = [] then true
  else awkward_patterns.any (fun r => reSearch r translation)

/-- C5 counterexample: the string `"the word of the Lord. and then"`
(lowercase word after a sentence-final period, but not at the end of the
string) is NOT classified awkward — the trailing-lowercase pattern is
end-anchored and no other pattern matches — contradicting the claim that it
is classified awkward. -/
theorem awkward_heuristic_counterexample :
    is_awkward_translation "the word of the Lord. and then".data = false := by
  decide

/-- C5 (amended): the classifier returns awkward for the empty string and
for `"the word of the Lord. and"` (lowercase word directly trailing the
sentence-final period at the end of the string), but not-awkward for
`"In the beginning was the Word."` and for
`"the word of the Lord. and then"`, since the lowercase-after-period
pattern requires the lowercase word to end the string. -/
theorem awkward_heuristic_eval :
    is_awkward_translation [] = true
    ∧ is_awkward_translation "In the beginning was the Word.".data = false
    ∧ is_awkward_translation "the word of the Lord. and then".data = false
    ∧ is_awkward_translation "the word of the Lord. and".data = true := by
  refine ⟨by decide, by decide, by decide, by decide⟩

end KoineVocab
